import Mathlib

/-!
CompilerToolHelper: the CRC-32 engine and its two command-line drivers.

A shallow embedding of

* `ToolchainTestHarness/src/CRC_Utils.cpp` (`calculate_crc32`),
* `DynamicToolValidator/src/main.cpp` (program A),
* `ToolchainTestHarness/src/main.cpp` (program B),

followed by theorems about them.

Conventions.  A `uint8_t` is a `Fin 256`.  A `uint32_t` is a natural number
and every operation that C++ performs in 32 bits is followed by an explicit
`% 4294967296`.  A `std::vector<uint8_t>` is a `List Byte`.  A character
stream (`std::cout`, `std::cerr`) is the list of bytes written to it.
-/

namespace CompilerToolHelper

/-! ## Definitions -/

/-- An 8-bit unsigned value (`uint8_t`). -/
abbrev Byte := Fin 256

/-- The constant `static constexpr uint32_t CRC32_POLYNOMIAL = 0xEDB88320;`
(CRC_Utils.cpp:4). -/
def CRC32_POLYNOMIAL : Nat := 0xEDB88320

/-- Body of the inner `for` loop (CRC_Utils.cpp:12-16):
`if (crc & 1) crc = (crc >> 1) ^ CRC32_POLYNOMIAL; else crc >>= 1;`
on a `uint32_t`. -/
def bit_step (crc : Nat) : Nat :=
  if crc &&& 1 ≠ 0 then
    ((crc >>> 1) ^^^ CRC32_POLYNOMIAL) % 4294967296
  else
    (crc >>> 1) % 4294967296

/-- The inner loop `for (int i = 0; i < 8; ++i) { ... }` (CRC_Utils.cpp:11-17),
by the number of iterations that remain; the source runs it as `bit_loop 8`. -/
def bit_loop : Nat → Nat → Nat
  | 0, crc => crc
  | n + 1, crc => bit_loop n (bit_step crc)

/-- Body of the outer loop (CRC_Utils.cpp:10-17): `crc ^= byte;` (the byte is
promoted to 32 bits) and then the eight bit steps. -/
def byte_step (crc : Nat) (byte : Byte) : Nat :=
  bit_loop 8 ((crc ^^^ byte.val) % 4294967296)

/-- The outer loop `for (uint8_t byte : data) { ... }` (CRC_Utils.cpp:9-18),
started from the accumulator `crc`. -/
def byte_loop : Nat → List Byte → Nat
  | crc, [] => crc
  | crc, byte :: rest => byte_loop (byte_step crc byte) rest

/-- Bitwise complement `~x` of a `uint32_t`. -/
def bnot32 (x : Nat) : Nat := 4294967295 - x % 4294967296

/-- The function `uint32_t calculate_crc32(const std::vector<uint8_t>& data)`
(CRC_Utils.cpp:6-21). -/
def calculate_crc32 (data : List Byte) : Nat :=
  bnot32 (byte_loop 0xFFFFFFFF data)

/-! ### The algorithm as the specification words it -/

/-- Specification, step 2, second bullet: if the low bit of `crc` is 1 the
new value is `(crc >> 1) XOR 0xEDB88320`, else `crc >> 1`. -/
def spec_bit (crc : Nat) : Nat :=
  if crc % 2 = 1 then (crc >>> 1) ^^^ 0xEDB88320 else crc >>> 1

/-- Specification, step 2: XOR the byte into the low 8 bits, then repeat the
bit step 8 times. -/
def spec_byte (crc : Nat) (b : Byte) : Nat :=
  spec_bit^[8] (crc ^^^ b.val)

/-- Specification, steps 1 to 3: start from `0xFFFFFFFF`, consume the bytes in
order, return the accumulator XOR `0xFFFFFFFF`. -/
def spec_crc32 (s : List Byte) : Nat :=
  (s.foldl spec_byte 0xFFFFFFFF) ^^^ 0xFFFFFFFF


/-! ### The table-driven variant the specification allows -/

/-- The 256-entry table: entry `i` is the result of the eight bit steps of
`calculate_crc32` applied to the 32-bit value `i`. -/
def crc_table : List Nat := (List.range 256).map (bit_loop 8)

/-- One table-driven update: `crc = T[(crc XOR b) AND 0xFF] XOR (crc >> 8)`. -/
def table_step (crc : Nat) (b : Byte) : Nat :=
  crc_table.getD ((crc ^^^ b.val) &&& 0xFF) 0 ^^^ (crc >>> 8)

/-- The table-driven implementation: start at `0xFFFFFFFF`, apply the table
update for each byte, return the complement. -/
def table_crc32 (s : List Byte) : Nat :=
  bnot32 (s.foldl table_step 0xFFFFFFFF)

/-! ### Polynomials over GF(2)

The mathematical side of the checksum: Mathlib polynomials over `ZMod 2`.
These are specification objects, not code, and are not executable. -/

/-- The IEEE 802.3 generator
`x^32+x^26+x^23+x^22+x^16+x^12+x^11+x^10+x^8+x^7+x^5+x^4+x^2+x+1`. -/
noncomputable def crc_generator : Polynomial (ZMod 2) :=
  Polynomial.X ^ 32 + Polynomial.X ^ 26 + Polynomial.X ^ 23 + Polynomial.X ^ 22 +
    Polynomial.X ^ 16 + Polynomial.X ^ 12 + Polynomial.X ^ 11 + Polynomial.X ^ 10 +
    Polynomial.X ^ 8 + Polynomial.X ^ 7 + Polynomial.X ^ 5 + Polynomial.X ^ 4 +
    Polynomial.X ^ 2 + Polynomial.X + 1

/-- The bits of one byte, least significant first. -/
def byte_bits (b : Byte) : List Bool :=
  (List.range 8).map (fun k => b.val.testBit k)

/-- The bits of a byte sequence: byte order, least significant bit first within
each byte. -/
def msg_bits : List Byte → List Bool
  | [] => []
  | b :: rest => byte_bits b ++ msg_bits rest

/-- The message polynomial `M(x)` of degree `< 8n`: bit number `j` of the
sequence is the coefficient of `x^(8n-1-j)`, so the first bit is the
coefficient of `x^(8n-1)`. -/
noncomputable def msg_poly (s : List Byte) : Polynomial (ZMod 2) :=
  ∑ j in Finset.range (8 * s.length),
    if (msg_bits s).getD j false then Polynomial.X ^ (8 * s.length - 1 - j) else 0

/-- The polynomial `I(x) = x^31 + x^30 + ... + x + 1`. -/
noncomputable def init_poly : Polynomial (ZMod 2) :=
  ∑ k in Finset.range 32, Polynomial.X ^ k

/-- A 32-bit word read as a polynomial: bit `k` of the word (bit 0 the least
significant) is the coefficient of `x^(31-k)`. -/
noncomputable def word_poly (r : Nat) : Polynomial (ZMod 2) :=
  ∑ k in Finset.range 32, if r.testBit k then Polynomial.X ^ (31 - k) else 0

/-- One byte as a polynomial of degree `< 8`: its least significant bit is the
coefficient of `x^7`. -/
noncomputable def byte_poly (b : Byte) : Polynomial (ZMod 2) :=
  ∑ k in Finset.range 8, if b.val.testBit k then Polynomial.X ^ (7 - k) else 0

/-! ### Character streams and number formatting

`operator<<` of the C++ standard library is not part of the repository; the
three formatters below state what it writes for the calls the programs make
(`std::hex` on a `uint32_t`, the default decimal base on `size_t` and
`long long`, and `std::endl`). -/

/-- The byte written for a character. -/
def char_byte (c : Char) : Byte := ⟨c.toNat % 256, Nat.mod_lt _ (by decide)⟩

/-- The bytes written for a string literal. -/
def ascii (s : String) : List Byte := s.toList.map char_byte

/-- The byte written by `std::endl`: one line feed. -/
def endl : List Byte := [0x0A]

/-- An unsigned value written under `std::hex`: lowercase digits, no prefix, no
padding. -/
def hex_digits (n : Nat) : List Byte := (Nat.toDigits 16 n).map char_byte

/-- An unsigned value written in the default base 10. -/
def dec_digits (n : Nat) : List Byte := (Nat.toDigits 10 n).map char_byte

/-- A signed value (`long long`) written in base 10. -/
def dec_int : Int → List Byte
  | Int.ofNat m => dec_digits m
  | Int.negSucc m => char_byte '-' :: dec_digits (m + 1)

/-- The value of one digit character, `0`-`9` and lowercase `a`-`f`; used to
read a written number back. -/
def digit_value (b : Byte) : Nat :=
  if 48 ≤ b.val ∧ b.val ≤ 57 then b.val - 48
  else if 97 ≤ b.val ∧ b.val ≤ 102 then b.val - 87
  else 0

/-- The number a digit string denotes in the given base, most significant digit
first. -/
def read_digits (base : Nat) (ds : List Byte) : Nat :=
  ds.foldl (fun acc b => acc * base + digit_value b) 0

/-- What a run of a program leaves behind: the bytes written to `std::cout`,
the bytes written to `std::cerr`, and the value returned from `main`. -/
structure ProcessResult where
  /-- Bytes written to `std::cout`. -/
  stdout : List Byte
  /-- Bytes written to `std::cerr`. -/
  stderr : List Byte
  /-- The value `main` returns. -/
  status : Int

end CompilerToolHelper

/-! ### Program A: `DynamicToolValidator/src/main.cpp` -/

namespace DynamicToolValidator

open CompilerToolHelper

/-- Program A, `int main(int argc, char* argv[])` (main.cpp:7-27).  `argv0` is
`argv[0]`, the program name, and `args` are `argv[1]`, `argv[2]`, ... so that
`argc = 1 + args.length`; a start with `argc = 0`, where `argv[0]` is null, is
outside this model.  Each argument is the byte string the C string holds. -/
def main (argv0 : List Byte) (args : List (List Byte)) : ProcessResult :=
  let argc := 1 + args.length
  if argc < 2 then
    { stdout := []
      stderr := ascii "Error: Input string argument required." ++ endl ++
        (ascii "Usage: " ++ argv0 ++ ascii " <input_string>" ++ endl)
      status := 1 }
  else
    -- `argv[1]` exists because `argc ≥ 2`; the default is never taken.
    let input_string := args.headD []
    let data := input_string
    let final_crc := calculate_crc32 data
    { stdout := ascii "CRC_RESULT=" ++ hex_digits final_crc ++ endl ++
        (ascii "INPUT_SIZE=" ++ dec_digits data.length ++ endl)
      stderr := []
      status := 0 }

end DynamicToolValidator

/-! ### Program B: `ToolchainTestHarness/src/main.cpp` -/

namespace ToolchainTestHarness

open CompilerToolHelper

/-- The constant `constexpr size_t BUFFER_SIZE = 4 * 1024 * 1024;` (main.cpp:7). -/
def BUFFER_SIZE : Nat := 4 * 1024 * 1024

/-- The constant `constexpr int RUNS = 10;` (main.cpp:18). -/
def RUNS : Nat := 10

/-- The generator lambda (main.cpp:11-14), `return counter++;` on the
`static uint8_t counter`: the value returned and the counter afterwards. -/
def next_counter (counter : Nat) : Byte × Nat :=
  (⟨counter % 256, Nat.mod_lt _ (by decide)⟩, (counter + 1) % 256)

/-- The call of `std::generate` over `n` positions, first to last, from a given counter:
the values stored and the counter afterwards. -/
def generate : Nat → Nat → List Byte × Nat
  | 0, counter => ([], counter)
  | n + 1, counter =>
    let r := generate n (next_counter counter).2
    ((next_counter counter).1 :: r.1, r.2)

/-- The buffer the specification describes: `n` bytes, the byte at index `i`
being `i mod 256`. -/
def pattern_buffer (n : Nat) : List Byte :=
  (List.range n).map (fun i => (⟨i % 256, Nat.mod_lt _ (by decide)⟩ : Byte))

/-- The timing loop (main.cpp:20-22), by the number of runs that remain:
`final_crc = calculate_crc32(data);` each time. -/
def run_loop : Nat → Nat → List Byte → Nat
  | 0, final_crc, _ => final_crc
  | n + 1, _, data => run_loop n (calculate_crc32 data) data

/-- Program B, `int main(int argc, char* argv[])` (main.cpp:9-33).  The
arguments are not read.  `duration_ms` is what the two clock readings give. -/
def main (duration_ms : Int) : ProcessResult :=
  let data := (generate BUFFER_SIZE 0).1
  let final_crc := run_loop RUNS 0 data
  { stdout := ascii "RESULT_CRC=" ++ hex_digits final_crc ++ endl ++
      (ascii "RESULT_TIME_MS=" ++ dec_int duration_ms ++ endl)
    stderr := []
    status := 0 }

end ToolchainTestHarness

namespace CompilerToolHelper

/-! ### Calls in a running process

The statements of `calculate_crc32` once more, this time as transformers of
the memory the call runs in, one definition per statement of CRC_Utils.cpp.
Every variable the function names has a cell; a cell holds whatever earlier
calls left in it until a statement writes it. -/

/-- The memory a call runs in. -/
structure Memory where
  /-- The cell of the local `uint32_t crc` (CRC_Utils.cpp:7). -/
  crc : Nat
  /-- The cell of the loop variable `uint8_t byte` (CRC_Utils.cpp:9). -/
  byte : Nat
  /-- The cell of the loop variable `int i` (CRC_Utils.cpp:11). -/
  i : Nat
  /-- The cell of `static uint8_t counter` of program B's generator lambda
  (ToolchainTestHarness main.cpp:12), the only object of static storage
  duration in the repository that is ever written. -/
  counter : Nat

/-- Lines 12-16, `if (crc & 1) crc = (crc >> 1) ^ CRC32_POLYNOMIAL; else
crc >>= 1;`: reads the cell `crc` and writes it. -/
def exec_bit_step (m : Memory) : Memory :=
  if m.crc &&& 1 ≠ 0 then
    { m with crc := ((m.crc >>> 1) ^^^ CRC32_POLYNOMIAL) % 4294967296 }
  else
    { m with crc := (m.crc >>> 1) % 4294967296 }

/-- The iterations of the inner loop (lines 11-17) that remain: the body, then
`++i`. -/
def exec_bit_iterations : Nat → Memory → Memory
  | 0, m => m
  | n + 1, m =>
    let m1 := exec_bit_step m
    exec_bit_iterations n { m1 with i := m1.i + 1 }

/-- Lines 11-17, `for (int i = 0; i < 8; ++i) { ... }`: `i` is set to 0 and the
body runs eight times. -/
def exec_bit_loop (m : Memory) : Memory :=
  exec_bit_iterations 8 { m with i := 0 }

/-- Lines 9-18, `for (uint8_t byte : data) { crc ^= byte; ... }`: for each
element in order, `byte` receives it, `crc ^= byte` reads both cells and
writes `crc`, then the inner loop runs. -/
def exec_byte_loop : List Byte → Memory → Memory
  | [], m => m
  | b :: rest, m =>
    let m1 : Memory := { m with byte := b.val }
    let m2 : Memory := { m1 with crc := (m1.crc ^^^ m1.byte) % 4294967296 }
    exec_byte_loop rest (exec_bit_loop m2)

/-- One call `calculate_crc32(data)` in memory `m`: line 7 writes
`0xFFFFFFFF` to `crc`, lines 9-18 run, line 20 returns `~crc`; the value
returned and the memory left behind. -/
def calculate_crc32_exec (m : Memory) (data : List Byte) : Nat × Memory :=
  let m1 : Memory := { m with crc := 0xFFFFFFFF }
  let m2 := exec_byte_loop data m1
  (bnot32 m2.crc, m2)

/-- The calls a process of this repository makes that write memory. -/
inductive Call where
  /-- A call `calculate_crc32(data)`. -/
  | crc32 (data : List Byte)
  /-- A call of program B's generator lambda, `return counter++;`. -/
  | generator

/-- The memory after one call. -/
def perform (m : Memory) : Call → Memory
  | Call.crc32 data => (calculate_crc32_exec m data).2
  | Call.generator => { m with counter := (ToolchainTestHarness.next_counter m.counter).2 }

/-- The memory after a history of calls, oldest first. -/
def run_history (m : Memory) (history : List Call) : Memory :=
  history.foldl perform m

/-! ### Byte blocks and words -/

/-- The four bytes of a 32-bit word in little-endian order:
`c AND 0xFF`, `(c >> 8) AND 0xFF`, `(c >> 16) AND 0xFF`, `(c >> 24) AND 0xFF`. -/
def le_bytes (c : Nat) : List Byte :=
  [⟨c &&& 0xFF, Nat.and_lt_two_pow (n := 8) c (by decide)⟩,
   ⟨(c >>> 8) &&& 0xFF, Nat.and_lt_two_pow (n := 8) (c >>> 8) (by decide)⟩,
   ⟨(c >>> 16) &&& 0xFF, Nat.and_lt_two_pow (n := 8) (c >>> 16) (by decide)⟩,
   ⟨(c >>> 24) &&& 0xFF, Nat.and_lt_two_pow (n := 8) (c >>> 24) (by decide)⟩]

/-- The number a byte block denotes when read little-endian. -/
def le_word : List Byte → Nat
  | [] => 0
  | b :: rest => b.val + 256 * le_word rest

/-- Bytewise XOR of two byte sequences. -/
def xor_bytes (a b : List Byte) : List Byte :=
  List.zipWith
    (fun x y => (⟨x.val ^^^ y.val, Nat.xor_lt_two_pow (n := 8) x.isLt y.isLt⟩ : Byte)) a b

/-! ## Theorems -/

theorem bit_step_lt (x : Nat) : bit_step x < 4294967296 := by
  unfold bit_step
  split <;> exact Nat.mod_lt _ (by decide)

theorem bit_loop_lt : ∀ (n x : Nat), x < 4294967296 → bit_loop n x < 4294967296
  | 0, _, h => h
  | n + 1, x, _ => bit_loop_lt n (bit_step x) (bit_step_lt x)

theorem byte_step_lt (crc : Nat) (b : Byte) : byte_step crc b < 4294967296 :=
  bit_loop_lt 8 _ (Nat.mod_lt _ (by decide))

theorem byte_loop_lt : ∀ (s : List Byte) (crc : Nat), crc < 4294967296 →
    byte_loop crc s < 4294967296
  | [], _, h => h
  | b :: rest, crc, _ => byte_loop_lt rest (byte_step crc b) (byte_step_lt crc b)

theorem shiftRight_one_lt (x : Nat) (h : x < 4294967296) : x >>> 1 < 2 ^ 32 := by
  rw [Nat.shiftRight_eq_div_pow]; omega

theorem bit_step_eq_spec_bit (x : Nat) (h : x < 4294967296) : bit_step x = spec_bit x := by
  unfold bit_step spec_bit
  have h1 : x >>> 1 < 2 ^ 32 := shiftRight_one_lt x h
  have h2 : (x >>> 1) ^^^ 0xEDB88320 < 2 ^ 32 := Nat.xor_lt_two_pow h1 (by decide)
  rw [Nat.and_one_is_mod]
  by_cases hx : x % 2 = 1
  · have : x % 2 ≠ 0 := by omega
    rw [if_pos this, if_pos hx]
    exact Nat.mod_eq_of_lt h2
  · have : ¬ (x % 2 ≠ 0) := by omega
    rw [if_neg this, if_neg hx]
    exact Nat.mod_eq_of_lt h1

theorem bit_loop_eq_iterate : ∀ (n x : Nat), x < 4294967296 →
    bit_loop n x = spec_bit^[n] x
  | 0, _, _ => rfl
  | n + 1, x, h => by
    rw [bit_loop, Function.iterate_succ_apply, ← bit_step_eq_spec_bit x h]
    exact bit_loop_eq_iterate n _ (bit_step_lt x)

theorem xor_byte_lt (crc : Nat) (b : Byte) (h : crc < 4294967296) :
    crc ^^^ b.val < 4294967296 :=
  Nat.xor_lt_two_pow (n := 32) h (Nat.lt_trans b.isLt (by decide))

theorem byte_step_eq_spec_byte (crc : Nat) (b : Byte) (h : crc < 4294967296) :
    byte_step crc b = spec_byte crc b := by
  unfold byte_step spec_byte
  rw [Nat.mod_eq_of_lt (xor_byte_lt crc b h)]
  exact bit_loop_eq_iterate 8 _ (xor_byte_lt crc b h)

theorem byte_loop_eq_foldl : ∀ (s : List Byte) (crc : Nat), crc < 4294967296 →
    byte_loop crc s = s.foldl spec_byte crc
  | [], _, _ => rfl
  | b :: rest, crc, h => by
    rw [byte_loop, List.foldl_cons, ← byte_step_eq_spec_byte crc b h]
    exact byte_loop_eq_foldl rest _ (byte_step_lt crc b)

theorem bnot32_eq_xor (x : Nat) (h : x < 4294967296) : bnot32 x = x ^^^ 0xFFFFFFFF := by
  unfold bnot32
  rw [Nat.mod_eq_of_lt h]
  apply Nat.eq_of_testBit_eq
  intro i
  have h1 : (4294967295 - x) = 2 ^ 32 - (x + 1) := by omega
  have h2 : (0xFFFFFFFF : Nat) = 2 ^ 32 - 1 := by decide
  rw [h1, Nat.testBit_two_pow_sub_succ (n := 32) h, Nat.testBit_xor, h2,
    Nat.testBit_two_pow_sub_one]
  by_cases hi : i < 32
  · simp [hi]
  · have : x.testBit i = false :=
      Nat.testBit_lt_two_pow (Nat.lt_of_lt_of_le h
        (Nat.pow_le_pow_right (n := 2) (by decide) (Nat.le_of_not_lt hi)))
    simp [hi, this]

/-- C1. For every finite byte sequence, `calculate_crc32` returns what the
specified algorithm returns: accumulator `0xFFFFFFFF`, per byte an XOR into the
low bits followed by eight conditional shift/XOR steps, final XOR with
`0xFFFFFFFF`. -/
theorem calculate_crc32_eq_spec (s : List Byte) : calculate_crc32 s = spec_crc32 s := by
  unfold calculate_crc32 spec_crc32
  rw [bnot32_eq_xor _ (byte_loop_lt s _ (by decide)), byte_loop_eq_foldl s _ (by decide)]

set_option maxRecDepth 100000 in
/-- C2. The checksum of the nine ASCII bytes of "123456789" is `0xCBF43926`. -/
theorem calculate_crc32_check_value :
    calculate_crc32 [0x31, 0x32, 0x33, 0x34, 0x35, 0x36, 0x37, 0x38, 0x39] = 0xCBF43926 := by
  decide

/-- C3. The checksum of the single byte `0x00` is `0xD202EF8D`. -/
theorem calculate_crc32_zero_byte : calculate_crc32 [0x00] = 0xD202EF8D := by
  decide

/-- C4. The checksum of the empty sequence is `0`: the accumulator is still
`0xFFFFFFFF` when the loop ends and its complement is `0`. -/
theorem calculate_crc32_nil :
    byte_loop 0xFFFFFFFF [] = 0xFFFFFFFF ∧ bnot32 0xFFFFFFFF = 0 ∧
      calculate_crc32 [] = 0x00000000 := by
  decide

/-! ### Incremental computation -/

theorem byte_loop_append : ∀ (s1 s2 : List Byte) (crc : Nat),
    byte_loop crc (s1 ++ s2) = byte_loop (byte_loop crc s1) s2
  | [], _, _ => rfl
  | b :: rest, s2, crc => by
    rw [List.cons_append, byte_loop, byte_loop]
    exact byte_loop_append rest s2 _

theorem bnot32_bnot32 (x : Nat) (h : x < 4294967296) : bnot32 (bnot32 x) = x := by
  unfold bnot32
  omega

/-- C5. Incremental equivalence: running the byte loop over `s1` from
`0xFFFFFFFF`, continuing it over `s2` from the accumulator reached, and
complementing once, gives `calculate_crc32 (s1 ++ s2)`; the accumulator to
continue from is the complement of `calculate_crc32 s1`. Every split point is
covered, `s1` or `s2` empty included. -/
theorem calculate_crc32_append (s1 s2 : List Byte) :
    bnot32 (byte_loop (byte_loop 0xFFFFFFFF s1) s2) = calculate_crc32 (s1 ++ s2) ∧
      calculate_crc32 (s1 ++ s2) = bnot32 (byte_loop (bnot32 (calculate_crc32 s1)) s2) := by
  unfold calculate_crc32
  rw [bnot32_bnot32 _ (byte_loop_lt s1 _ (by decide)), byte_loop_append]
  exact ⟨rfl, rfl⟩

/-! ### The bit step is linear over XOR -/

theorem shiftRight_one_xor (a b : Nat) : (a ^^^ b) >>> 1 = (a >>> 1) ^^^ (b >>> 1) := by
  apply Nat.eq_of_testBit_eq
  intro i
  simp [Nat.testBit_shiftRight, Nat.testBit_xor]

theorem spec_bit_xor (a b : Nat) : spec_bit (a ^^^ b) = spec_bit a ^^^ spec_bit b := by
  unfold spec_bit
  rw [shiftRight_one_xor]
  have hx := @Nat.xor_mod_two_eq_one a b
  by_cases ha : a % 2 = 1 <;> by_cases hb : b % 2 = 1
  · have hab : ¬ ((a ^^^ b) % 2 = 1) := by rw [hx]; simp [ha, hb]
    rw [if_pos ha, if_pos hb, if_neg hab]
    apply Nat.eq_of_testBit_eq
    intro i
    simp only [Nat.testBit_xor]
    cases (a >>> 1).testBit i <;> cases (b >>> 1).testBit i <;>
      cases (3988292384 : Nat).testBit i <;> rfl
  · have hab : (a ^^^ b) % 2 = 1 := by rw [hx]; simp [ha, hb]
    rw [if_pos ha, if_neg hb, if_pos hab, Nat.xor_assoc, Nat.xor_assoc,
      Nat.xor_comm (b >>> 1)]
  · have hab : (a ^^^ b) % 2 = 1 := by rw [hx]; simp [ha, hb]
    rw [if_neg ha, if_pos hb, if_pos hab, Nat.xor_assoc]
  · have hab : ¬ ((a ^^^ b) % 2 = 1) := by rw [hx]; simp [ha, hb]
    rw [if_neg ha, if_neg hb, if_neg hab]

theorem spec_bit_iterate_xor : ∀ (n a b : Nat),
    spec_bit^[n] (a ^^^ b) = spec_bit^[n] a ^^^ spec_bit^[n] b
  | 0, _, _ => rfl
  | n + 1, a, b => by
    rw [Function.iterate_succ_apply, Function.iterate_succ_apply,
      Function.iterate_succ_apply, spec_bit_xor]
    exact spec_bit_iterate_xor n _ _

theorem spec_bit_shiftLeft_succ (h k : Nat) : spec_bit (h <<< (k + 1)) = h <<< k := by
  unfold spec_bit
  rw [Nat.shiftLeft_succ, Nat.shiftRight_eq_div_pow]
  have h0 : ¬ ((2 * h <<< k) % 2 = 1) := by omega
  rw [if_neg h0]
  omega

theorem spec_bit_iterate_shiftLeft : ∀ (k h : Nat), spec_bit^[k] (h <<< k) = h
  | 0, h => by simp
  | k + 1, h => by
    rw [Function.iterate_succ_apply, spec_bit_shiftLeft_succ]
    exact spec_bit_iterate_shiftLeft k h

theorem low_byte_xor_high (x : Nat) : (x &&& 0xFF) ^^^ ((x >>> 8) <<< 8) = x := by
  apply Nat.eq_of_testBit_eq
  intro i
  have h255 : (0xFF : Nat) = 2 ^ 8 - 1 := by decide
  rw [Nat.testBit_xor, Nat.testBit_and, h255, Nat.testBit_two_pow_sub_one,
    Nat.testBit_shiftLeft, Nat.testBit_shiftRight]
  by_cases hi : i < 8
  · have : ¬ (i ≥ 8) := by omega
    simp [hi, this]
  · have h8 : i ≥ 8 := by omega
    have : 8 + (i - 8) = i := by omega
    simp [hi, h8, this]

/-- Eight bit steps on any word: the low byte goes through the eight steps on
its own and the upper bits come down unchanged. -/
theorem spec_bit_iterate_eight (x : Nat) :
    spec_bit^[8] x = spec_bit^[8] (x &&& 0xFF) ^^^ (x >>> 8) := by
  conv_lhs => rw [← low_byte_xor_high x]
  rw [spec_bit_iterate_xor, spec_bit_iterate_shiftLeft]

/-! ### Table-driven computation -/

theorem and_255_lt (x : Nat) : x &&& 0xFF < 256 :=
  Nat.and_lt_two_pow (n := 8) x (by decide)

theorem crc_table_getD (i : Nat) (h : i < 256) : crc_table.getD i 0 = spec_bit^[8] i := by
  unfold crc_table
  rw [List.getD_eq_getElem?_getD, List.getElem?_map, List.getElem?_range h]
  exact bit_loop_eq_iterate 8 i (Nat.lt_trans h (by decide))

theorem xor_byte_shiftRight (crc : Nat) (b : Byte) : (crc ^^^ b.val) >>> 8 = crc >>> 8 := by
  apply Nat.eq_of_testBit_eq
  intro i
  rw [Nat.testBit_shiftRight, Nat.testBit_shiftRight, Nat.testBit_xor]
  have : b.val.testBit (8 + i) = false :=
    Nat.testBit_lt_two_pow (Nat.lt_of_lt_of_le b.isLt
      (Nat.pow_le_pow_right (n := 2) (by decide) (Nat.le_add_right 8 i)))
  simp [this]

theorem table_step_eq_byte_step (crc : Nat) (b : Byte) (h : crc < 4294967296) :
    table_step crc b = byte_step crc b := by
  rw [byte_step_eq_spec_byte crc b h]
  unfold table_step spec_byte
  rw [crc_table_getD _ (and_255_lt _), spec_bit_iterate_eight (crc ^^^ b.val),
    xor_byte_shiftRight]

theorem foldl_table_step_eq : ∀ (s : List Byte) (crc : Nat), crc < 4294967296 →
    s.foldl table_step crc = byte_loop crc s
  | [], _, _ => rfl
  | b :: rest, crc, h => by
    rw [List.foldl_cons, byte_loop, table_step_eq_byte_step crc b h]
    exact foldl_table_step_eq rest _ (byte_step_lt crc b)

/-- C6. The table-driven implementation (table entry `i` = eight bit steps on
`i`, update `T[(crc XOR b) AND 0xFF] XOR (crc >> 8)`, start `0xFFFFFFFF`,
complement at the end) agrees with `calculate_crc32` on every byte sequence. -/
theorem table_crc32_eq_calculate_crc32 (s : List Byte) :
    table_crc32 s = calculate_crc32 s := by
  unfold table_crc32 calculate_crc32
  rw [foldl_table_step_eq s _ (by decide)]

/-! ### Polynomial division over GF(2) -/

theorem poly_add_self (p : Polynomial (ZMod 2)) : p + p = 0 :=
  CharTwo.add_self_eq_zero p

theorem word_poly_xor (a b : Nat) : word_poly (a ^^^ b) = word_poly a + word_poly b := by
  unfold word_poly
  rw [← Finset.sum_add_distrib]
  apply Finset.sum_congr rfl
  intro k _
  rw [Nat.testBit_xor]
  cases a.testBit k <;> cases b.testBit k <;> simp [poly_add_self]

theorem word_poly_degree_lt (r : Nat) : (word_poly r).degree < 32 := by
  have hmem : word_poly r ∈ Polynomial.degreeLT (ZMod 2) 32 := by
    unfold word_poly
    apply Submodule.sum_mem
    intro k _
    split
    · rw [Polynomial.mem_degreeLT]
      refine lt_of_le_of_lt (Polynomial.degree_X_pow_le _) ?_
      exact_mod_cast (by omega : 31 - k < 32)
    · exact Submodule.zero_mem _
  exact Polynomial.mem_degreeLT.mp hmem

theorem word_poly_poly : word_poly CRC32_POLYNOMIAL + Polynomial.X ^ 32 = crc_generator := by
  unfold word_poly CRC32_POLYNOMIAL crc_generator
  simp [Finset.sum_range_succ, Nat.testBit, Nat.shiftRight_eq_div_pow]
  ring

theorem word_poly_shiftRight (r : Nat) (h : r < 4294967296) :
    Polynomial.X * word_poly r =
      word_poly (r >>> 1) + (if r % 2 = 1 then Polynomial.X ^ 32 else 0) := by
  have h32 : (r >>> 1).testBit 31 = false := by
    rw [Nat.testBit_shiftRight]
    exact Nat.testBit_lt_two_pow h
  have hsum : ∑ k in Finset.range 31,
        Polynomial.X * (if r.testBit (k + 1) then Polynomial.X ^ (31 - (k + 1)) else 0) =
      ∑ k in Finset.range 31,
        (if (r >>> 1).testBit k then Polynomial.X ^ (31 - k) else (0 : Polynomial (ZMod 2))) := by
    apply Finset.sum_congr rfl
    intro k hk
    have hk31 : k < 31 := Finset.mem_range.mp hk
    rw [Nat.testBit_shiftRight, Nat.add_comm 1 k]
    split
    · rw [← pow_succ']
      congr 1
      omega
    · exact mul_zero _
  have hl : Polynomial.X * word_poly r =
      (∑ k in Finset.range 31,
        Polynomial.X * (if r.testBit (k + 1) then Polynomial.X ^ (31 - (k + 1)) else 0)) +
      Polynomial.X * (if r.testBit 0 then Polynomial.X ^ (31 - 0) else 0) := by
    unfold word_poly
    rw [Finset.mul_sum, Finset.sum_range_succ']
  have hr : word_poly (r >>> 1) =
      ∑ k in Finset.range 31,
        (if (r >>> 1).testBit k then Polynomial.X ^ (31 - k) else (0 : Polynomial (ZMod 2))) := by
    unfold word_poly
    rw [Finset.sum_range_succ, h32]
    simp
  rw [hl, hr, hsum, Nat.testBit_zero]
  by_cases h0 : r % 2 = 1
  · simp [h0, ← pow_succ']
  · simp [h0]

theorem word_poly_bit_step (r : Nat) (h : r < 4294967296) :
    Polynomial.X * word_poly r =
      word_poly (bit_step r) + (if r % 2 = 1 then crc_generator else 0) := by
  rw [bit_step_eq_spec_bit r h, word_poly_shiftRight r h]
  unfold spec_bit
  by_cases h0 : r % 2 = 1
  · rw [if_pos h0, if_pos h0, if_pos h0, word_poly_xor, add_assoc]
    congr 1
    change _ = word_poly CRC32_POLYNOMIAL + crc_generator
    rw [← word_poly_poly, ← add_assoc, poly_add_self, zero_add]
  · rw [if_neg h0, if_neg h0, if_neg h0]

theorem generator_dvd_bit_step (r : Nat) (h : r < 4294967296) :
    crc_generator ∣ Polynomial.X * word_poly r - word_poly (bit_step r) := by
  rw [word_poly_bit_step r h, add_sub_cancel_left]
  split
  · exact dvd_refl _
  · exact dvd_zero _

theorem generator_dvd_bit_loop : ∀ (n r : Nat), r < 4294967296 →
    crc_generator ∣ Polynomial.X ^ n * word_poly r - word_poly (bit_loop n r)
  | 0, r, _ => by simp [bit_loop]
  | n + 1, r, h => by
    have ih := generator_dvd_bit_loop n (bit_step r) (bit_step_lt r)
    have h1 := generator_dvd_bit_step r h
    have e : Polynomial.X ^ (n + 1) * word_poly r - word_poly (bit_loop (n + 1) r) =
        Polynomial.X ^ n * (Polynomial.X * word_poly r - word_poly (bit_step r)) +
          (Polynomial.X ^ n * word_poly (bit_step r) -
            word_poly (bit_loop n (bit_step r))) := by
      rw [bit_loop]
      ring
    rw [e]
    exact dvd_add (Dvd.dvd.mul_left h1 _) ih

theorem word_poly_byte (b : Byte) :
    word_poly b.val = Polynomial.X ^ 24 * byte_poly b := by
  unfold word_poly byte_poly
  rw [show (32 : Nat) = 8 + 24 from rfl, Finset.sum_range_add, Finset.mul_sum]
  have hz : ∑ k in Finset.range 24,
      (if b.val.testBit (8 + k) then Polynomial.X ^ (31 - (8 + k))
        else (0 : Polynomial (ZMod 2))) = 0 := by
    apply Finset.sum_eq_zero
    intro k _
    have : b.val.testBit (8 + k) = false :=
      Nat.testBit_lt_two_pow (Nat.lt_of_lt_of_le b.isLt
        (Nat.pow_le_pow_right (n := 2) (by decide) (Nat.le_add_right 8 k)))
    simp [this]
  rw [hz, add_zero]
  apply Finset.sum_congr rfl
  intro k hk
  have hk8 : k < 8 := Finset.mem_range.mp hk
  split
  · rw [← pow_add]
    congr 1
    omega
  · exact (mul_zero _).symm

theorem generator_dvd_byte_step (crc : Nat) (b : Byte) (h : crc < 4294967296) :
    crc_generator ∣ Polynomial.X ^ 8 * word_poly crc + Polynomial.X ^ 32 * byte_poly b -
      word_poly (byte_step crc b) := by
  have h1 := generator_dvd_bit_loop 8 (crc ^^^ b.val) (xor_byte_lt crc b h)
  unfold byte_step
  rw [Nat.mod_eq_of_lt (xor_byte_lt crc b h)]
  rw [word_poly_xor, word_poly_byte] at h1
  have e : Polynomial.X ^ 8 * word_poly crc + Polynomial.X ^ 32 * byte_poly b =
      Polynomial.X ^ 8 * (word_poly crc + Polynomial.X ^ 24 * byte_poly b) := by ring
  rw [e]
  exact h1

theorem byte_bits_getD (b : Byte) (j : Nat) (h : j < 8) :
    (byte_bits b).getD j false = b.val.testBit j := by
  unfold byte_bits
  rw [List.getD_eq_getElem?_getD, List.getElem?_map, List.getElem?_range h]
  rfl

theorem byte_bits_length (b : Byte) : (byte_bits b).length = 8 := by
  simp [byte_bits]

theorem msg_poly_nil : msg_poly [] = 0 := by
  simp [msg_poly]

theorem msg_poly_cons (b : Byte) (rest : List Byte) :
    msg_poly (b :: rest) =
      byte_poly b * Polynomial.X ^ (8 * rest.length) + msg_poly rest := by
  unfold msg_poly byte_poly
  rw [List.length_cons, show 8 * (rest.length + 1) = 8 + 8 * rest.length by ring,
    Finset.sum_range_add, Finset.sum_mul, msg_bits]
  congr 1
  · apply Finset.sum_congr rfl
    intro j hj
    have hj8 : j < 8 := Finset.mem_range.mp hj
    rw [List.getD_append _ _ _ _ (by rw [byte_bits_length]; exact hj8), byte_bits_getD b j hj8]
    split
    · rw [← pow_add]
      congr 1
      omega
    · exact (zero_mul _).symm
  · apply Finset.sum_congr rfl
    intro j _
    rw [List.getD_append_right _ _ _ _ (by rw [byte_bits_length]; omega), byte_bits_length]
    have e1 : 8 + j - 8 = j := by omega
    have e2 : 8 + 8 * rest.length - 1 - (8 + j) = 8 * rest.length - 1 - j := by omega
    rw [e1, e2]

theorem generator_dvd_byte_loop : ∀ (s : List Byte) (crc : Nat), crc < 4294967296 →
    crc_generator ∣ word_poly crc * Polynomial.X ^ (8 * s.length) +
      msg_poly s * Polynomial.X ^ 32 - word_poly (byte_loop crc s)
  | [], crc, _ => by simp [msg_poly_nil, byte_loop]
  | b :: rest, crc, h => by
    have ih := generator_dvd_byte_loop rest (byte_step crc b) (byte_step_lt crc b)
    have h1 := generator_dvd_byte_step crc b h
    have e : word_poly crc * Polynomial.X ^ (8 * (b :: rest).length) +
          msg_poly (b :: rest) * Polynomial.X ^ 32 - word_poly (byte_loop crc (b :: rest)) =
        Polynomial.X ^ (8 * rest.length) *
          (Polynomial.X ^ 8 * word_poly crc + Polynomial.X ^ 32 * byte_poly b -
            word_poly (byte_step crc b)) +
        (word_poly (byte_step crc b) * Polynomial.X ^ (8 * rest.length) +
          msg_poly rest * Polynomial.X ^ 32 -
            word_poly (byte_loop (byte_step crc b) rest)) := by
      rw [byte_loop, msg_poly_cons, List.length_cons]
      ring
    rw [e]
    exact dvd_add (Dvd.dvd.mul_left h1 _) ih

theorem crc_generator_monic : crc_generator.Monic := by
  unfold crc_generator
  monicity!

theorem crc_generator_degree : crc_generator.degree = 32 := by
  unfold crc_generator
  compute_degree!

theorem word_poly_ones : word_poly 0xFFFFFFFF = init_poly := by
  unfold word_poly init_poly
  rw [← Finset.sum_range_reflect]
  apply Finset.sum_congr rfl
  intro k hk
  have hk32 : k < 32 := Finset.mem_range.mp hk
  have hb : (0xFFFFFFFF : Nat).testBit (32 - 1 - k) = true := by
    rw [show (0xFFFFFFFF : Nat) = 2 ^ 32 - 1 by decide, Nat.testBit_two_pow_sub_one]
    exact decide_eq_true (by omega)
  rw [if_pos hb]
  congr 1
  omega

theorem calculate_crc32_xor_ones (s : List Byte) :
    calculate_crc32 s ^^^ 0xFFFFFFFF = byte_loop 0xFFFFFFFF s := by
  have hlt : byte_loop 0xFFFFFFFF s < 4294967296 := byte_loop_lt s _ (by decide)
  have hb : bnot32 (byte_loop 0xFFFFFFFF s) < 4294967296 := by
    unfold bnot32
    omega
  unfold calculate_crc32
  rw [← bnot32_eq_xor _ hb, bnot32_bnot32 _ hlt]

/-- Reading check: the word `1` (only bit 0 set) is `x^31`, and the two bytes
`0x80, 0x01` (bits 7 and 8 of the bit sequence set) are `x^8 + x^7`. -/
theorem poly_reading_examples :
    word_poly 1 = Polynomial.X ^ 31 ∧
      msg_poly [0x80, 0x01] = Polynomial.X ^ 8 + Polynomial.X ^ 7 := by
  constructor
  · unfold word_poly
    simp [Finset.sum_range_succ, Nat.testBit, Nat.shiftRight_eq_div_pow]
  · have h1 : ((0x80 : Byte) : Nat) = 128 := rfl
    have h2 : ((0x01 : Byte) : Nat) = 1 := rfl
    rw [msg_poly_cons, msg_poly_cons, msg_poly_nil]
    unfold byte_poly
    simp [Finset.sum_range_succ, Nat.testBit, Nat.shiftRight_eq_div_pow, h1, h2]

/-- C7. `calculate_crc32` is bit-reflected polynomial division over GF(2) by
the IEEE 802.3 generator: for every byte sequence `s` of `n` bytes, the word
`calculate_crc32 s XOR 0xFFFFFFFF`, read with bit `k` as the coefficient of
`x^(31-k)`, is the remainder of `M(x) * x^32 + I(x) * x^(8n)` modulo `G(x)`,
where `M` carries the bits of `s` (byte order, least significant bit first,
first bit at `x^(8n-1)`) and `I = x^31 + ... + 1`. -/
theorem calculate_crc32_polynomial_division (s : List Byte) :
    word_poly (calculate_crc32 s ^^^ 0xFFFFFFFF) =
      (msg_poly s * Polynomial.X ^ 32 + init_poly * Polynomial.X ^ (8 * s.length)) %
        crc_generator := by
  rw [calculate_crc32_xor_ones, ← Polynomial.modByMonic_eq_mod _ crc_generator_monic]
  have hd := generator_dvd_byte_loop s 0xFFFFFFFF (by decide)
  rw [word_poly_ones, add_comm (init_poly * _)] at hd
  rw [Polynomial.modByMonic_eq_of_dvd_sub crc_generator_monic hd]
  symm
  apply (Polynomial.modByMonic_eq_self_iff crc_generator_monic).mpr
  rw [crc_generator_degree]
  exact word_poly_degree_lt _

/-! ### Number formatting -/

theorem toDigitsCore_all (base : Nat) (Q : Char → Prop)
    (hQ : ∀ n, Q (Nat.digitChar (n % base))) :
    ∀ (fuel n : Nat) (ds : List Char), (∀ c ∈ ds, Q c) →
      ∀ c ∈ Nat.toDigitsCore base fuel n ds, Q c
  | 0, _, ds, hds => by
    simpa [Nat.toDigitsCore] using hds
  | fuel + 1, n, ds, hds => by
    have hcons : ∀ c ∈ Nat.digitChar (n % base) :: ds, Q c := by
      intro c hc
      rcases List.mem_cons.mp hc with h | h
      · rw [h]; exact hQ n
      · exact hds c h
    rw [Nat.toDigitsCore]
    split
    · exact hcons
    · exact toDigitsCore_all base Q hQ fuel _ _ hcons

theorem hex_digit_lowercase (n : Nat) :
    char_byte (Nat.digitChar (n % 16)) ∈ ascii "0123456789abcdef" := by
  have h : n % 16 < 16 := Nat.mod_lt _ (by decide)
  interval_cases n % 16 <;> decide

theorem dec_digit_decimal (n : Nat) :
    char_byte (Nat.digitChar (n % 10)) ∈ ascii "0123456789" := by
  have h : n % 10 < 10 := Nat.mod_lt _ (by decide)
  interval_cases n % 10 <;> decide

theorem digit_value_digitChar (m : Nat) (h : m < 16) :
    digit_value (char_byte (Nat.digitChar m)) = m := by
  interval_cases m <;> decide

theorem read_toDigitsCore (base : Nat) (hb : 2 ≤ base) (hb16 : base ≤ 16) :
    ∀ (fuel n : Nat) (ds : List Char), n < fuel →
      List.foldl (fun acc b => acc * base + digit_value b) 0
          ((Nat.toDigitsCore base fuel n ds).map char_byte) =
        List.foldl (fun acc b => acc * base + digit_value b) n (ds.map char_byte)
  | 0, _, _, h => absurd h (Nat.not_lt_zero _)
  | fuel + 1, n, ds, h => by
    have hd : digit_value (char_byte (Nat.digitChar (n % base))) = n % base :=
      digit_value_digitChar _ (Nat.lt_of_lt_of_le (Nat.mod_lt _ (by omega)) hb16)
    rw [Nat.toDigitsCore]
    by_cases h0 : n / base = 0
    · have hn : n < base := (Nat.div_eq_zero_iff (by omega)).mp h0
      rw [Nat.mod_eq_of_lt hn] at hd
      simp only [h0, if_true, List.map_cons, List.foldl_cons, Nat.mod_eq_of_lt hn, hd,
        Nat.zero_mul, Nat.zero_add]
    · have hlt : n / base < fuel := by
        have h1 : n / base < n := Nat.div_lt_self (by
          rcases Nat.eq_zero_or_pos n with hz | hp
          · rw [hz, Nat.zero_div] at h0; exact absurd rfl h0
          · exact hp) hb
        omega
      simp only [h0, if_false]
      rw [read_toDigitsCore base hb hb16 fuel _ _ hlt]
      simp only [List.map_cons, List.foldl_cons, hd, Nat.div_add_mod']

theorem read_hex_digits (n : Nat) : read_digits 16 (hex_digits n) = n :=
  read_toDigitsCore 16 (by decide) (by decide) (n + 1) n [] (Nat.lt_succ_self n)

theorem read_dec_digits (n : Nat) : read_digits 10 (dec_digits n) = n :=
  read_toDigitsCore 10 (by decide) (by decide) (n + 1) n [] (Nat.lt_succ_self n)

theorem hex_digits_subset (n : Nat) : hex_digits n ⊆ ascii "0123456789abcdef" := by
  intro b hb
  unfold hex_digits at hb
  obtain ⟨c, hc, rfl⟩ := List.mem_map.mp hb
  exact toDigitsCore_all 16 (fun c => char_byte c ∈ ascii "0123456789abcdef")
    hex_digit_lowercase _ _ [] (fun _ h => absurd h (List.not_mem_nil _)) c hc

theorem dec_digits_subset (n : Nat) : dec_digits n ⊆ ascii "0123456789" := by
  intro b hb
  unfold dec_digits at hb
  obtain ⟨c, hc, rfl⟩ := List.mem_map.mp hb
  exact toDigitsCore_all 10 (fun c => char_byte c ∈ ascii "0123456789")
    dec_digit_decimal _ _ [] (fun _ h => absurd h (List.not_mem_nil _)) c hc

end CompilerToolHelper

namespace DynamicToolValidator

open CompilerToolHelper

/-! ### Program A -/

theorem main_nil (argv0 : List Byte) :
    main argv0 [] =
      { stdout := []
        stderr := ascii "Error: Input string argument required." ++ endl ++
          (ascii "Usage: " ++ argv0 ++ ascii " <input_string>" ++ endl)
        status := 1 } := rfl

theorem main_cons (argv0 a : List Byte) (rest : List (List Byte)) :
    main argv0 (a :: rest) =
      { stdout := ascii "CRC_RESULT=" ++ hex_digits (calculate_crc32 a) ++ endl ++
          (ascii "INPUT_SIZE=" ++ dec_digits a.length ++ endl)
        stderr := []
        status := 0 } := by
  have h : ¬ (1 + (a :: rest).length < 2) := by
    rw [List.length_cons]
    omega
  unfold main
  rw [if_neg h]
  rfl

set_option maxRecDepth 100000 in
/-- C8. Program A with at least one argument `a` writes to standard output
exactly two lines, `CRC_RESULT=` followed by `calculate_crc32` of the bytes of
`a` in lowercase hexadecimal without prefix and `INPUT_SIZE=` followed by the
decimal byte count of `a`, and returns 0. The digits written use only
`0-9a-f` (resp. `0-9`) and read back to the value. For the argument "hello"
the output is `CRC_RESULT=3610a686` and `INPUT_SIZE=5`. -/
theorem main_prints_crc_and_size (argv0 a : List Byte) (rest : List (List Byte)) :
    (main argv0 (a :: rest)).stdout =
        ascii "CRC_RESULT=" ++ hex_digits (calculate_crc32 a) ++ [0x0A] ++
          (ascii "INPUT_SIZE=" ++ dec_digits a.length ++ [0x0A]) ∧
      hex_digits (calculate_crc32 a) ⊆ ascii "0123456789abcdef" ∧
      read_digits 16 (hex_digits (calculate_crc32 a)) = calculate_crc32 a ∧
      dec_digits a.length ⊆ ascii "0123456789" ∧
      read_digits 10 (dec_digits a.length) = a.length ∧
      (main argv0 (a :: rest)).status = 0 ∧
      calculate_crc32 (ascii "hello") = 0x3610a686 ∧
      (main argv0 (ascii "hello" :: rest)).stdout =
        ascii "CRC_RESULT=3610a686\nINPUT_SIZE=5\n" := by
  rw [main_cons, main_cons]
  refine ⟨rfl, hex_digits_subset _, read_hex_digits _, dec_digits_subset _,
    read_dec_digits _, rfl, by decide, by decide⟩

/-- C9. Program A without an argument returns 1, writes its two-line message to
the error stream and nothing to standard output; with an argument it returns
0. The status is non-zero exactly when the argument is missing. -/
theorem main_exit_status (argv0 : List Byte) (args : List (List Byte)) :
    (main argv0 []).status = 1 ∧
      (main argv0 []).stderr =
        ascii "Error: Input string argument required.\nUsage: " ++ argv0 ++
          ascii " <input_string>\n" ∧
      (main argv0 []).stderr ≠ [] ∧
      (main argv0 []).stdout = [] ∧
      ((main argv0 args).status ≠ 0 ↔ args = []) ∧
      ((main argv0 args).status = 0 ↔ args ≠ []) := by
  have hlit1 : ascii "Error: Input string argument required.\nUsage: " =
      ascii "Error: Input string argument required." ++ endl ++ ascii "Usage: " := by
    decide
  have hlit2 : ascii " <input_string>\n" = ascii " <input_string>" ++ endl := by
    decide
  have hne : ascii "Error: Input string argument required." ≠ [] := by decide
  rw [main_nil, hlit1, hlit2]
  refine ⟨rfl, by simp only [List.append_assoc], ?_, rfl, ?_, ?_⟩
  · intro h
    exact hne (List.append_eq_nil.mp (List.append_eq_nil.mp h).1).1
  · cases args with
    | nil => rw [main_nil]; simp
    | cons a rest => rw [main_cons]; simp
  · cases args with
    | nil => rw [main_nil]; simp
    | cons a rest => rw [main_cons]; simp

end DynamicToolValidator

namespace ToolchainTestHarness

open CompilerToolHelper

/-! ### Program B -/

theorem generate_fst : ∀ (n counter : Nat),
    (generate n counter).1 =
      (List.range n).map
        (fun i => (⟨(counter + i) % 256, Nat.mod_lt _ (by decide)⟩ : Byte))
  | 0, _ => rfl
  | n + 1, counter => by
    rw [generate, List.range_succ_eq_map, List.map_cons, List.map_map]
    show (next_counter counter).1 :: (generate n (next_counter counter).2).1 = _
    rw [generate_fst n]
    congr 1
    apply List.map_congr_left
    intro i _
    apply Fin.ext
    show ((counter + 1) % 256 + i) % 256 = (counter + (i + 1)) % 256
    omega

theorem generate_eq_pattern_buffer (n : Nat) : (generate n 0).1 = pattern_buffer n := by
  rw [generate_fst, pattern_buffer]
  simp

theorem pattern_buffer_length (n : Nat) : (pattern_buffer n).length = n := by
  simp [pattern_buffer]

theorem pattern_buffer_getD (n i : Nat) (h : i < n) :
    ((pattern_buffer n).getD i 0).val = i % 256 := by
  unfold pattern_buffer
  rw [List.getD_eq_getElem?_getD, List.getElem?_map, List.getElem?_range h]
  rfl

theorem run_loop_runs (final_crc : Nat) (data : List Byte) :
    run_loop RUNS final_crc data = calculate_crc32 data := rfl

/-- C10. Program B's `RESULT_CRC` line carries, in hexadecimal, one
application of `calculate_crc32` to the buffer of exactly 4,194,304 bytes whose
byte at index `i` is `i mod 256`, which is the buffer `std::generate` fills from
the wrapping counter; the ten runs over that buffer yield that same value; the
program returns 0. -/
theorem main_result_crc (duration_ms : Int) :
    BUFFER_SIZE = 4194304 ∧
      (generate BUFFER_SIZE 0).1 = pattern_buffer BUFFER_SIZE ∧
      (pattern_buffer BUFFER_SIZE).length = BUFFER_SIZE ∧
      run_loop RUNS 0 (pattern_buffer BUFFER_SIZE) =
        calculate_crc32 (pattern_buffer BUFFER_SIZE) ∧
      (main duration_ms).stdout =
        ascii "RESULT_CRC=" ++ hex_digits (calculate_crc32 (pattern_buffer BUFFER_SIZE)) ++
          [0x0A] ++ (ascii "RESULT_TIME_MS=" ++ dec_int duration_ms ++ [0x0A]) ∧
      read_digits 16 (hex_digits (calculate_crc32 (pattern_buffer BUFFER_SIZE))) =
        calculate_crc32 (pattern_buffer BUFFER_SIZE) ∧
      (main duration_ms).status = 0 := by
  refine ⟨by decide, generate_eq_pattern_buffer _, pattern_buffer_length _,
    run_loop_runs _ _, ?_, read_hex_digits _, rfl⟩
  unfold main
  simp only [run_loop_runs, generate_eq_pattern_buffer]
  rfl

end ToolchainTestHarness

namespace CompilerToolHelper

/-! ### Determinism and independence of the call history -/

theorem memory_eq (a b : Memory) (h1 : a.crc = b.crc) (h2 : a.byte = b.byte)
    (h3 : a.i = b.i) (h4 : a.counter = b.counter) : a = b := by
  cases a
  cases b
  simp_all

theorem exec_bit_step_crc (m : Memory) : (exec_bit_step m).crc = bit_step m.crc := by
  unfold exec_bit_step bit_step
  split <;> rfl

theorem exec_bit_step_counter (m : Memory) : (exec_bit_step m).counter = m.counter := by
  unfold exec_bit_step
  split <;> rfl

theorem exec_bit_step_byte (m : Memory) : (exec_bit_step m).byte = m.byte := by
  unfold exec_bit_step
  split <;> rfl

theorem exec_bit_step_i (m : Memory) : (exec_bit_step m).i = m.i := by
  unfold exec_bit_step
  split <;> rfl

theorem exec_bit_iterations_crc : ∀ (n : Nat) (m : Memory),
    (exec_bit_iterations n m).crc = bit_loop n m.crc
  | 0, _ => rfl
  | n + 1, m => by
    rw [exec_bit_iterations, bit_loop, exec_bit_iterations_crc n]
    exact congrArg _ (exec_bit_step_crc m)

theorem exec_bit_iterations_counter : ∀ (n : Nat) (m : Memory),
    (exec_bit_iterations n m).counter = m.counter
  | 0, _ => rfl
  | n + 1, m => by
    rw [exec_bit_iterations, exec_bit_iterations_counter n]
    exact exec_bit_step_counter m

theorem exec_bit_iterations_byte : ∀ (n : Nat) (m : Memory),
    (exec_bit_iterations n m).byte = m.byte
  | 0, _ => rfl
  | n + 1, m => by
    rw [exec_bit_iterations, exec_bit_iterations_byte n]
    exact exec_bit_step_byte m

theorem exec_bit_iterations_i : ∀ (n : Nat) (m : Memory),
    (exec_bit_iterations n m).i = m.i + n
  | 0, _ => rfl
  | n + 1, m => by
    rw [exec_bit_iterations, exec_bit_iterations_i n]
    show (exec_bit_step m).i + 1 + n = m.i + (n + 1)
    rw [exec_bit_step_i]
    omega

theorem exec_byte_loop_crc : ∀ (data : List Byte) (m : Memory),
    (exec_byte_loop data m).crc = byte_loop m.crc data
  | [], _ => rfl
  | b :: rest, m => by
    rw [exec_byte_loop, byte_loop, exec_byte_loop_crc rest]
    exact congrArg (fun c => byte_loop c rest) (exec_bit_iterations_crc 8 _)

theorem exec_byte_loop_counter : ∀ (data : List Byte) (m : Memory),
    (exec_byte_loop data m).counter = m.counter
  | [], _ => rfl
  | b :: rest, m => by
    rw [exec_byte_loop, exec_byte_loop_counter rest]
    exact exec_bit_iterations_counter 8 _

/-- The value a call returns is the value of the function, whatever the memory
held; the static counter is as it was. -/
theorem calculate_crc32_exec_spec (m : Memory) (data : List Byte) :
    (calculate_crc32_exec m data).1 = calculate_crc32 data ∧
      (calculate_crc32_exec m data).2.counter = m.counter := by
  unfold calculate_crc32_exec calculate_crc32
  exact ⟨congrArg bnot32 (exec_byte_loop_crc data _), exec_byte_loop_counter data _⟩

/-- The cells a call of `calculate_crc32` on a non-empty input leaves behind:
`crc` holds the final accumulator, `byte` the last element, `i` is 8. -/
theorem calculate_crc32_exec_locals (m : Memory) (data : List Byte) (b : Byte) :
    (calculate_crc32_exec m (data ++ [b])).2 =
      { crc := byte_loop 0xFFFFFFFF (data ++ [b]), byte := b.val, i := 8,
        counter := m.counter } := by
  have key : ∀ (data : List Byte) (m : Memory), exec_byte_loop (data ++ [b]) m =
      { crc := byte_loop m.crc (data ++ [b]), byte := b.val, i := 8,
        counter := m.counter } := by
    intro data
    induction data with
    | nil =>
      intro m
      have e : ∀ m1 : Memory, exec_bit_loop m1 =
          { crc := bit_loop 8 m1.crc, byte := m1.byte, i := 8, counter := m1.counter } := by
        intro m1
        unfold exec_bit_loop
        exact memory_eq _ _ (exec_bit_iterations_crc 8 _) (exec_bit_iterations_byte 8 _)
          ((exec_bit_iterations_i 8 _).trans (Nat.zero_add 8)) (exec_bit_iterations_counter 8 _)
      rw [List.nil_append, exec_byte_loop, exec_byte_loop, e]
      rfl
    | cons a rest ih =>
      intro m
      rw [List.cons_append, exec_byte_loop, ih, byte_loop]
      congr 1
      · exact congrArg (fun c => byte_loop c (rest ++ [b])) (exec_bit_iterations_crc 8 _)
      · exact exec_bit_iterations_counter 8 _
  unfold calculate_crc32_exec
  exact key data _

/-- C11. `calculate_crc32` is deterministic and history-independent: run
statement by statement in any memory, a call on `s` returns
`calculate_crc32 s`, so two calls on `s` agree whatever histories of calls (on
any inputs, generator calls included) came before, from whatever memories; the
call leaves the static counter as it found it, writing only its own locals. -/
theorem calculate_crc32_history_independent (m m' : Memory)
    (history history' : List Call) (s : List Byte) :
    (calculate_crc32_exec (run_history m history) s).1 =
        (calculate_crc32_exec (run_history m' history') s).1 ∧
      (calculate_crc32_exec (run_history m history) s).1 = calculate_crc32 s ∧
      (calculate_crc32_exec (run_history m history) s).2.counter =
        (run_history m history).counter := by
  have h := calculate_crc32_exec_spec (run_history m history) s
  have h' := calculate_crc32_exec_spec (run_history m' history') s
  exact ⟨h.1.trans h'.1.symm, h.1, h.2⟩

set_option maxRecDepth 100000 in
/-- The memory is a real channel between calls: the generator of program B
returns `0` at its first call and `1` at its second, and a call of
`calculate_crc32` leaves its accumulator behind in the cell `crc`. -/
theorem memory_carries_history :
    (ToolchainTestHarness.next_counter
        (run_history { crc := 0, byte := 0, i := 0, counter := 0 } []).counter).1 = 0 ∧
      (ToolchainTestHarness.next_counter
        (run_history { crc := 0, byte := 0, i := 0, counter := 0 }
          [Call.generator]).counter).1 = 1 ∧
      (run_history { crc := 0, byte := 0, i := 0, counter := 0 }
          [Call.crc32 [0x00]]).crc = 0x2DFD1072 := by
  decide

/-! ### A block of bytes acts as one word -/

theorem spec_bit_iterate_low_byte (x d : Nat) :
    spec_bit^[8] (x ^^^ (d &&& 0xFF)) ^^^ (d >>> 8) = spec_bit^[8] (x ^^^ d) := by
  conv_rhs => rw [← low_byte_xor_high d, ← Nat.xor_assoc, spec_bit_iterate_xor,
    spec_bit_iterate_shiftLeft]

theorem le_word_cons_low (b : Byte) (rest : List Byte) :
    le_word (b :: rest) &&& 0xFF = b.val := by
  have h := b.isLt
  rw [show (0xFF : Nat) = 2 ^ 8 - 1 by decide, Nat.and_pow_two_sub_one_eq_mod, le_word]
  omega

theorem le_word_cons_high (b : Byte) (rest : List Byte) :
    le_word (b :: rest) >>> 8 = le_word rest := by
  have h := b.isLt
  rw [Nat.shiftRight_eq_div_pow, le_word]
  omega

theorem foldl_spec_byte_eq_iterate : ∀ (w : List Byte) (x : Nat),
    w.foldl spec_byte x = spec_bit^[8 * w.length] (x ^^^ le_word w)
  | [], x => by simp [le_word]
  | b :: rest, x => by
    rw [List.foldl_cons, foldl_spec_byte_eq_iterate rest, List.length_cons,
      show 8 * (rest.length + 1) = 8 * rest.length + 8 by ring,
      Function.iterate_add_apply, ← spec_bit_iterate_low_byte x (le_word (b :: rest)),
      le_word_cons_low, le_word_cons_high]
    rfl

theorem le_word_le_bytes (c : Nat) (h : c < 4294967296) : le_word (le_bytes c) = c := by
  unfold le_bytes
  simp only [le_word]
  rw [show (0xFF : Nat) = 2 ^ 8 - 1 by decide]
  simp only [Nat.and_pow_two_sub_one_eq_mod, Nat.shiftRight_eq_div_pow]
  omega

theorem xor_bnot32_self (x : Nat) (h : x < 4294967296) : x ^^^ bnot32 x = 0xFFFFFFFF := by
  rw [bnot32_eq_xor x h, Nat.xor_cancel_left]

/-- C12. Residue property: appending to any byte sequence `s` the four bytes of
`calculate_crc32 s` in little-endian order gives a sequence whose checksum is
`0x2144DF1C`, whatever `s` is. -/
theorem calculate_crc32_residue (s : List Byte) :
    calculate_crc32 (s ++ le_bytes (calculate_crc32 s)) = 0x2144DF1C := by
  have hlt : byte_loop 0xFFFFFFFF s < 4294967296 := byte_loop_lt s _ (by decide)
  have hc : bnot32 (byte_loop 0xFFFFFFFF s) < 4294967296 := by
    unfold bnot32
    omega
  have hlen : (le_bytes (bnot32 (byte_loop 0xFFFFFFFF s))).length = 4 := rfl
  unfold calculate_crc32
  rw [byte_loop_append, byte_loop_eq_foldl _ _ hlt, foldl_spec_byte_eq_iterate,
    le_word_le_bytes _ hc, xor_bnot32_self _ hlt, hlen]
  decide

/-! ### The affine XOR property -/

theorem xor_pairs (x y a b : Nat) : (x ^^^ y) ^^^ (a ^^^ b) = (x ^^^ a) ^^^ (y ^^^ b) := by
  apply Nat.eq_of_testBit_eq
  intro i
  simp only [Nat.testBit_xor]
  cases x.testBit i <;> cases y.testBit i <;> cases a.testBit i <;> cases b.testBit i <;> rfl

theorem xor_three_complement (p q r f : Nat) :
    (p ^^^ q ^^^ r) ^^^ f = (p ^^^ f) ^^^ (q ^^^ f) ^^^ (r ^^^ f) := by
  apply Nat.eq_of_testBit_eq
  intro i
  simp only [Nat.testBit_xor]
  cases p.testBit i <;> cases q.testBit i <;> cases r.testBit i <;> cases f.testBit i <;> rfl

theorem spec_byte_xor (x y : Nat) (a b : Byte) :
    spec_byte (x ^^^ y) ⟨a.val ^^^ b.val, Nat.xor_lt_two_pow (n := 8) a.isLt b.isLt⟩ =
      spec_byte x a ^^^ spec_byte y b := by
  unfold spec_byte
  rw [← spec_bit_iterate_xor]
  exact congrArg _ (xor_pairs x y a.val b.val)

theorem foldl_spec_byte_xor : ∀ (a b : List Byte), a.length = b.length → ∀ (x y : Nat),
    (xor_bytes a b).foldl spec_byte (x ^^^ y) =
      a.foldl spec_byte x ^^^ b.foldl spec_byte y
  | [], [], _, _, _ => rfl
  | [], _ :: _, h, _, _ => absurd h (by simp)
  | _ :: _, [], h, _, _ => absurd h (by simp)
  | a0 :: as, b0 :: bs, h, x, y => by
    have hl : as.length = bs.length := by simpa using h
    unfold xor_bytes
    rw [List.zipWith_cons_cons, List.foldl_cons, List.foldl_cons, List.foldl_cons,
      spec_byte_xor]
    exact foldl_spec_byte_xor as bs hl _ _

theorem xor_bytes_length (a b : List Byte) (h : a.length = b.length) :
    (xor_bytes a b).length = a.length := by
  unfold xor_bytes
  rw [List.length_zipWith, h, Nat.min_self]

theorem xor_bytes_zero : ∀ (a : List Byte), xor_bytes a (List.replicate a.length 0) = a
  | [] => rfl
  | a0 :: as => by
    unfold xor_bytes
    rw [List.length_cons, List.replicate_succ, List.zipWith_cons_cons]
    congr 1
    · apply Fin.ext
      exact Nat.xor_zero a0.val
    · exact xor_bytes_zero as

theorem calculate_crc32_eq_foldl_xor (s : List Byte) :
    calculate_crc32 s = s.foldl spec_byte 0xFFFFFFFF ^^^ 0xFFFFFFFF := by
  unfold calculate_crc32
  rw [bnot32_eq_xor _ (byte_loop_lt s _ (by decide)), byte_loop_eq_foldl s _ (by decide)]

theorem calculate_crc32_xor_three (a b c : List Byte) (hab : a.length = b.length)
    (hbc : b.length = c.length) :
    calculate_crc32 (xor_bytes (xor_bytes a b) c) =
      calculate_crc32 a ^^^ calculate_crc32 b ^^^ calculate_crc32 c := by
  have hlen : (xor_bytes a b).length = c.length := by
    rw [xor_bytes_length a b hab, hab, hbc]
  have hf : (0xFFFFFFFF : Nat) = (0xFFFFFFFF ^^^ 0xFFFFFFFF) ^^^ 0xFFFFFFFF := by decide
  rw [calculate_crc32_eq_foldl_xor, calculate_crc32_eq_foldl_xor a,
    calculate_crc32_eq_foldl_xor b, calculate_crc32_eq_foldl_xor c,
    ← xor_three_complement]
  congr 1
  conv_lhs => rw [hf]
  rw [foldl_spec_byte_xor _ c hlen, foldl_spec_byte_xor a b hab]

/-- C14. Affine XOR property: for byte sequences `a`, `b`, `c` of one length,
the checksum of their bytewise XOR is the XOR of their checksums; and the
checksum of `a XOR b` is the XOR of the checksums of `a`, of `b` and of the
all-zero sequence of that length. -/
theorem calculate_crc32_xor (a b c : List Byte) (hab : a.length = b.length)
    (hbc : b.length = c.length) :
    calculate_crc32 (xor_bytes (xor_bytes a b) c) =
        calculate_crc32 a ^^^ calculate_crc32 b ^^^ calculate_crc32 c ∧
      calculate_crc32 (xor_bytes a b) =
        calculate_crc32 a ^^^ calculate_crc32 b ^^^
          calculate_crc32 (List.replicate a.length 0) := by
  refine ⟨calculate_crc32_xor_three a b c hab hbc, ?_⟩
  have hz : b.length = (List.replicate a.length (0 : Byte)).length := by
    rw [List.length_replicate, hab]
  have h := calculate_crc32_xor_three a b (List.replicate a.length 0) hab hz
  have hx : xor_bytes (xor_bytes a b) (List.replicate a.length 0) = xor_bytes a b := by
    have := xor_bytes_zero (xor_bytes a b)
    rwa [xor_bytes_length a b hab] at this
  rw [hx] at h
  exact h

/-- Witness for C14 at `a = [1,2,3]`, `b = [7,9,200]`, `c = [255,0,17]`. -/
theorem calculate_crc32_xor_witness :
    calculate_crc32 (xor_bytes (xor_bytes ([1, 2, 3] : List Byte) [7, 9, 200]) [255, 0, 17]) =
        calculate_crc32 [1, 2, 3] ^^^ calculate_crc32 [7, 9, 200] ^^^
          calculate_crc32 [255, 0, 17] ∧
      calculate_crc32 (xor_bytes ([1, 2, 3] : List Byte) [7, 9, 200]) =
        calculate_crc32 [1, 2, 3] ^^^ calculate_crc32 [7, 9, 200] ^^^
          calculate_crc32 (List.replicate ([1, 2, 3] : List Byte).length 0) :=
  calculate_crc32_xor [1, 2, 3] [7, 9, 200] [255, 0, 17] rfl rfl

/-! ### Detection of a changed block -/

theorem spec_bit_lt (x : Nat) (h : x < 4294967296) : spec_bit x < 4294967296 := by
  rw [← bit_step_eq_spec_bit x h]
  exact bit_step_lt x

theorem spec_bit_iterate_lt : ∀ (n x : Nat), x < 4294967296 → spec_bit^[n] x < 4294967296
  | 0, _, h => h
  | n + 1, x, h => by
    rw [Function.iterate_succ_apply]
    exact spec_bit_iterate_lt n _ (spec_bit_lt x h)

theorem shifted_xor_poly_ne (a b : Nat) (ha : a < 2 ^ 31) (hb : b < 2 ^ 31) :
    a ^^^ 0xEDB88320 ≠ b := by
  intro h
  have h1 : (a ^^^ 0xEDB88320).testBit 31 = true := by
    rw [Nat.testBit_xor, Nat.testBit_lt_two_pow ha]
    decide
  rw [h, Nat.testBit_lt_two_pow hb] at h1
  exact Bool.noConfusion h1

theorem spec_bit_injective (x y : Nat) (hx : x < 4294967296) (hy : y < 4294967296)
    (h : spec_bit x = spec_bit y) : x = y := by
  have hx1 : x >>> 1 < 2 ^ 31 := by rw [Nat.shiftRight_eq_div_pow]; omega
  have hy1 : y >>> 1 < 2 ^ 31 := by rw [Nat.shiftRight_eq_div_pow]; omega
  unfold spec_bit at h
  by_cases px : x % 2 = 1 <;> by_cases py : y % 2 = 1
  · rw [if_pos px, if_pos py, Nat.xor_left_inj, Nat.shiftRight_eq_div_pow,
      Nat.shiftRight_eq_div_pow] at h
    omega
  · rw [if_pos px, if_neg py] at h
    exact absurd h (shifted_xor_poly_ne _ _ hx1 hy1)
  · rw [if_neg px, if_pos py] at h
    exact absurd h.symm (shifted_xor_poly_ne _ _ hy1 hx1)
  · rw [if_neg px, if_neg py, Nat.shiftRight_eq_div_pow, Nat.shiftRight_eq_div_pow] at h
    omega

theorem spec_bit_iterate_injective : ∀ (n x y : Nat), x < 4294967296 → y < 4294967296 →
    spec_bit^[n] x = spec_bit^[n] y → x = y
  | 0, _, _, _, _, h => h
  | n + 1, x, y, hx, hy, h => by
    rw [Function.iterate_succ_apply, Function.iterate_succ_apply] at h
    exact spec_bit_injective x y hx hy
      (spec_bit_iterate_injective n _ _ (spec_bit_lt x hx) (spec_bit_lt y hy) h)

theorem byte_step_injective (x y : Nat) (b : Byte) (hx : x < 4294967296)
    (hy : y < 4294967296) (h : byte_step x b = byte_step y b) : x = y := by
  rw [byte_step_eq_spec_byte x b hx, byte_step_eq_spec_byte y b hy] at h
  unfold spec_byte at h
  exact Nat.xor_left_inj.mp
    (spec_bit_iterate_injective 8 _ _ (xor_byte_lt x b hx) (xor_byte_lt y b hy) h)

theorem byte_loop_injective : ∀ (q : List Byte) (x y : Nat), x < 4294967296 →
    y < 4294967296 → byte_loop x q = byte_loop y q → x = y
  | [], _, _, _, _, h => h
  | b :: rest, x, y, hx, hy, h => by
    rw [byte_loop, byte_loop] at h
    exact byte_step_injective x y b hx hy
      (byte_loop_injective rest _ _ (byte_step_lt x b) (byte_step_lt y b) h)

theorem le_word_lt : ∀ (w : List Byte), le_word w < 256 ^ w.length
  | [] => by simp [le_word]
  | b :: rest => by
    have ih := le_word_lt rest
    have hb := b.isLt
    rw [le_word, List.length_cons, Nat.pow_succ]
    omega

theorem le_word_lt_of_length_le (w : List Byte) (h : w.length ≤ 4) :
    le_word w < 4294967296 :=
  Nat.lt_of_lt_of_le (le_word_lt w)
    (Nat.pow_le_pow_right (n := 256) (by decide) h)

theorem le_word_injective : ∀ (w w' : List Byte), w.length = w'.length →
    le_word w = le_word w' → w = w'
  | [], [], _, _ => rfl
  | [], _ :: _, h, _ => absurd h (by simp)
  | _ :: _, [], h, _ => absurd h (by simp)
  | a :: as, b :: bs, h, hw => by
    have hl : as.length = bs.length := by simpa using h
    have ha := a.isLt
    have hb := b.isLt
    rw [le_word, le_word] at hw
    have h1 : a.val = b.val := by omega
    have h2 : le_word as = le_word bs := by omega
    rw [Fin.ext h1, le_word_injective as bs hl h2]

/-- From one accumulator, two different blocks of one length of at most four
bytes lead to different accumulators. -/
theorem byte_loop_block_injective (x : Nat) (hx : x < 4294967296) (w w' : List Byte)
    (hlen : w.length = w'.length) (h4 : w.length ≤ 4)
    (h : byte_loop x w = byte_loop x w') : w = w' := by
  have h4' : w'.length ≤ 4 := hlen ▸ h4
  have hw := le_word_lt_of_length_le w h4
  have hw' := le_word_lt_of_length_le w' h4'
  rw [byte_loop_eq_foldl w x hx, byte_loop_eq_foldl w' x hx, foldl_spec_byte_eq_iterate,
    foldl_spec_byte_eq_iterate, ← hlen] at h
  have hxor := spec_bit_iterate_injective _ _ _
    (Nat.xor_lt_two_pow (n := 32) hx hw) (Nat.xor_lt_two_pow (n := 32) hx hw') h
  exact le_word_injective w w' hlen (Nat.xor_right_inj.mp hxor)

theorem bnot32_injective (x y : Nat) (hx : x < 4294967296) (hy : y < 4294967296)
    (h : bnot32 x = bnot32 y) : x = y := by
  unfold bnot32 at h
  omega

theorem calculate_crc32_block_injective (p q w w' : List Byte)
    (hlen : w.length = w'.length) (h4 : w.length ≤ 4)
    (h : calculate_crc32 (p ++ w ++ q) = calculate_crc32 (p ++ w' ++ q)) : w = w' := by
  have hp : byte_loop 0xFFFFFFFF p < 4294967296 := byte_loop_lt p _ (by decide)
  unfold calculate_crc32 at h
  have h1 := bnot32_injective _ _ (byte_loop_lt _ _ (by decide))
    (byte_loop_lt _ _ (by decide)) h
  simp only [byte_loop_append] at h1
  have h2 := byte_loop_injective q _ _ (byte_loop_lt w _ hp) (byte_loop_lt w' _ hp) h1
  exact byte_loop_block_injective _ hp w w' hlen h4 h2

/-- C13. Burst-error detection: replacing a 4-byte block `w` by a different
4-byte block at the same place, whatever comes before and after, changes the
checksum; so does changing a single byte (hence a single bit) of an input of
any length; and on inputs of length exactly 4 `calculate_crc32` is injective. -/
theorem calculate_crc32_detects_block :
    (∀ p q w w' : List Byte, w.length = 4 → w'.length = 4 → w ≠ w' →
        calculate_crc32 (p ++ w ++ q) ≠ calculate_crc32 (p ++ w' ++ q)) ∧
      (∀ (p q : List Byte) (a b : Byte), a ≠ b →
        calculate_crc32 (p ++ a :: q) ≠ calculate_crc32 (p ++ b :: q)) ∧
      (∀ x y : List Byte, x.length = 4 → y.length = 4 →
        calculate_crc32 x = calculate_crc32 y → x = y) := by
  refine ⟨?_, ?_, ?_⟩
  · intro p q w w' hw hw' hne h
    exact hne (calculate_crc32_block_injective p q w w' (hw.trans hw'.symm) (by omega) h)
  · intro p q a b hne h
    have e : ∀ c : Byte, p ++ c :: q = p ++ [c] ++ q := by
      intro c
      simp
    rw [e a, e b] at h
    have := calculate_crc32_block_injective p q [a] [b] rfl (by simp) h
    exact hne (List.head_eq_of_cons_eq this)
  · intro x y hx hy h
    have h' : calculate_crc32 ([] ++ x ++ []) = calculate_crc32 ([] ++ y ++ []) := by
      simpa using h
    exact calculate_crc32_block_injective [] [] x y (hx.trans hy.symm) (by omega) h'

/-- Witness for C13: the blocks `[1,2,3,4]` and `[1,2,3,5]` between `[5]` and
`[9]`, the bytes `0x00` and `0x01` (one bit apart) as the whole input, and two
inputs of length 4. -/
theorem calculate_crc32_detects_block_witness :
    calculate_crc32 (([5] : List Byte) ++ [1, 2, 3, 4] ++ [9]) ≠
        calculate_crc32 (([5] : List Byte) ++ [1, 2, 3, 5] ++ [9]) ∧
      calculate_crc32 (([] : List Byte) ++ 0x00 :: []) ≠
        calculate_crc32 (([] : List Byte) ++ 0x01 :: []) :=
  ⟨calculate_crc32_detects_block.1 [5] [9] [1, 2, 3, 4] [1, 2, 3, 5] rfl rfl (by decide),
    calculate_crc32_detects_block.2.1 [] [] 0x00 0x01 (by decide)⟩

end CompilerToolHelper
